import Mathlib

/-!
Shallow embedding of factorio_tools/production_calc.py: the demand-expansion
engine (create_totals) and the byproduct balancer (create_recipe_matrices,
rank_recipe_combo, process_oil).  Python dicts are modelled as association
lists preserving insertion order; Python floats as exact rationals; numpy
matrix inversion as exact rational inversion (cofactor formula), with the
singular case returning none in place of LinAlgError.
-/

set_option maxHeartbeats 1000000
set_option linter.unnecessarySeqFocus false

unseal Rat.add Rat.mul Rat.sub Rat.inv

/-- A demand map: item name to accumulated required rate, in insertion order
(the embedding of the Python defaultdict threaded through create_totals). -/
abbrev DMap := List (String × ℚ)

/-- First-match association-list lookup: the embedding of Python dict access. -/
def lookupL {α : Type} : List (String × α) → String → Option α
  | [], _ => none
  | (k2, v) :: rest, k => if k2 = k then some v else lookupL rest k

/-- Lookup with default 0, the read semantics of a defaultdict(int) entry. -/
def lookupD (m : List (String × ℚ)) (k : String) : ℚ :=
  (lookupL m k).getD 0

/-- The update products[product] += count on a defaultdict: add to the entry
in place when the key exists, append the new key at the end otherwise. -/
def addTo (m : DMap) (k : String) (v : ℚ) : DMap :=
  match m with
  | [] => [(k, v)]
  | (k2, v2) :: rest => if k2 = k then (k2, v2 + v) :: rest else (k2, v2) :: addTo rest k v

/-- The Recipe dataclass of production_calc.py, with its field defaults.
Integer quantities and float rates are both embedded as rationals. -/
structure Recipe where
  ingredients : List (String × ℚ) := []
  time : ℚ := 0
  output : ℚ := 1
  production : String := "AssemblingMachine"
  fluid : Bool := false
  breakdown : Option (List (String × ℚ)) := none
deriving DecidableEq, Repr

/-- The module-level OIL_PROCESSING_RECIPES list (CoalLiquefaction is
commented out in the source and therefore absent). -/
def OIL_PROCESSING_RECIPES : List String :=
  ["BasicOilProcessing", "AdvancedOilProcessing", "HeavyOilCracking",
   "LightOilCracking", "HeavyOil2SolidFuel", "LightOil2SolidFuel",
   "PetroleumGas2SolidFuel"]

/-- The for-loop of create_totals over the ingredients of a recipe: each
ingredient is resolved by the step function (the recursive call) at rate
count * qty / output, threading the accumulator; none propagates the
out-of-fuel marker. -/
def ctIngredients (step : String → ℚ → DMap → Option DMap) :
    List (String × ℚ) → ℚ → ℚ → DMap → Option DMap
  | [], _, _, acc => some acc
  | (i, q) :: rest, c, o, acc =>
    match step i (c * q / o) acc with
    | none => none
    | some acc2 => ctIngredients step rest c o acc2

/-- create_totals of production_calc.py, with an explicit fuel bound on the
recursion depth (the Python source recurses without bound; none means the
bound was exhausted, which on an acyclic catalog never happens for
sufficiently large fuel). -/
def create_totals : Nat → String → ℚ → List (String × Recipe) → DMap → Option DMap
  | 0, _, _, _, _ => none
  | fuel + 1, product, count, recipes, products =>
    let p1 := addTo products product count
    match lookupL recipes product with
    | none => some p1
    | some r =>
      ctIngredients (fun i c acc => create_totals fuel i c recipes acc)
        r.ingredients count r.output p1

/-- The public entry of create_totals: the products argument defaults to
None in Python and a fresh empty defaultdict is allocated in that case. -/
def create_totals_entry (fuel : Nat) (product : String) (count : ℚ)
    (recipes : List (String × Recipe)) (products : Option DMap) : Option DMap :=
  create_totals fuel product count recipes (products.getD [])

/-- The two-recipe catalog of the end-to-end example: IronPlate from IronOre,
Gear from two IronPlate. -/
def exampleCatalog : List (String × Recipe) :=
  [("IronPlate", { ingredients := [("IronOre", 1)], production := "Furnace" }),
   ("Gear", { ingredients := [("IronPlate", 2)] })]

/-- A diamond-shaped catalog: Root needs A and B, each of which needs X. -/
def diamondCatalog : List (String × Recipe) :=
  [("Root", { ingredients := [("A", 1), ("B", 1)] }),
   ("A", { ingredients := [("X", 1)] }),
   ("B", { ingredients := [("X", 1)] })]

/-- Laplace expansion along the first row: the running sum of
sign * entry * subdeterminant, where the recursive determinant is supplied
as the function argument and j is the current column index. -/
def detExpand (f : List (List ℚ) → ℚ) : List ℚ → List (List ℚ) → Nat → ℚ
  | [], _, _ => 0
  | a :: as, rest, j =>
    (if j % 2 = 0 then (1 : ℚ) else -1) * a * f (rest.map (fun row => row.eraseIdx j)) +
      detExpand f as rest (j + 1)

/-- Determinant of a rational matrix, size-indexed so that the recursion is
structural (detN n computes the determinant of matrices with at most n rows;
the empty matrix has determinant 1). -/
def detN : Nat → List (List ℚ) → ℚ
  | 0, _ => 1
  | _ + 1, [] => 1
  | n + 1, row :: rest => detExpand (detN n) row rest 0

/-- Determinant of a square rational matrix. -/
def detL (m : List (List ℚ)) : ℚ := detN m.length m

/-- The minor of a matrix: remove row r and column c. -/
def minorM (m : List (List ℚ)) (r c : Nat) : List (List ℚ) :=
  (m.eraseIdx r).map (fun row => row.eraseIdx c)

/-- Exact matrix inversion by the adjugate formula, the embedding of
numpy.linalg.inv; a singular matrix yields none in place of LinAlgError. -/
def matInv (m : List (List ℚ)) : Option (List (List ℚ)) :=
  let d := detL m
  if d = 0 then none
  else
    some ((List.range m.length).map (fun i =>
      (List.range m.length).map (fun j =>
        (if (i + j) % 2 = 0 then (1 : ℚ) else -1) * detL (minorM m j i) / d)))

/-- Dot product of two rational vectors. -/
def dotVec (row b : List ℚ) : ℚ := (List.zipWith (fun x y => x * y) row b).sum

/-- Matrix-vector product, the embedding of numpy ndarray.dot. -/
def matVec (m : List (List ℚ)) (b : List ℚ) : List ℚ := m.map (fun row => dotVec row b)

/-- Effectful map over a list in the Except monad, short-circuiting at the
first error: the embedding of a Python loop that appends to a list and can
raise. -/
def mapE {α β : Type} (f : α → Except String β) : List α → Except String (List β)
  | [] => Except.ok []
  | a :: as =>
    match f a with
    | Except.error e => Except.error e
    | Except.ok b =>
      match mapE f as with
      | Except.error e => Except.error e
      | Except.ok bs => Except.ok (b :: bs)

/-- One matrix element in create_recipe_matrices: a recipe with no breakdown
raises ValueError; otherwise the element starts at 0, has the ingredient
quantity of the output product subtracted if present, and the breakdown
quantity added if present. -/
def buildElement (r : Recipe) (out : String) : Except String ℚ :=
  match r.breakdown with
  | none => Except.error "Not a valid Oil Processing recipe"
  | some br =>
    let e1 : ℚ := 0
    let e2 :=
      match lookupL r.ingredients out with
      | some q => e1 - q
      | none => e1
    let e3 :=
      match lookupL br out with
      | some q => e2 + q
      | none => e2
    Except.ok e3

/-- The inv_recipe_matrix built for one candidate subset: one row per output
product, one column per recipe of the subset. -/
def buildMatrix (subset : List (String × Recipe)) (outs : List String) :
    Except String (List (List ℚ)) :=
  mapE (fun out => mapE (fun nr => buildElement nr.2 out) subset) outs

/-- The sub-collection of a list selected by the bits of mask, the embedding
of the dict comprehension keyed on (mask // 2 ** idx) % 2. -/
def maskFilter {α : Type} (mask : Nat) (l : List α) : List α :=
  (l.enum.filter (fun p => decide (mask / 2 ^ p.1 % 2 = 1))).map Prod.snd

/-- The loop body of create_recipe_matrices over a list of masks: skip
non-square subsets, abort on an invalid recipe, silently skip singular
matrices, and collect (recipe names, inverse matrix) pairs in mask order. -/
def crmGo (avail : List (String × Recipe)) (outs : List String) :
    List Nat → Except String (List (List String × List (List ℚ)))
  | [] => Except.ok []
  | mask :: rest =>
    let subset := maskFilter mask avail
    if subset.length = outs.length then
      match buildMatrix subset outs with
      | Except.error e => Except.error e
      | Except.ok M =>
        match matInv M with
        | none => crmGo avail outs rest
        | some MI =>
          match crmGo avail outs rest with
          | Except.error e => Except.error e
          | Except.ok l => Except.ok ((subset.map Prod.fst, MI) :: l)
    else crmGo avail outs rest

/-- create_recipe_matrices of production_calc.py: enumerate every bit mask
over the available recipes. -/
def create_recipe_matrices (avail : List (String × Recipe)) (outs : List String) :
    Except String (List (List String × List (List ℚ))) :=
  crmGo avail outs (List.range (2 ^ avail.length))

/-- rank_recipe_combo of production_calc.py: the sum of the run rates of the
two preferred recipes, each contributing only when present in the combo. -/
def rank_recipe_combo (recipe_counts : List (String × ℚ)) : ℚ :=
  let r0 : ℚ := 0
  let r1 :=
    match lookupL recipe_counts "BasicOilProcessing" with
    | some v => r0 + v
    | none => r0
  match lookupL recipe_counts "AdvancedOilProcessing" with
  | some v => r1 + v
  | none => r1

/-- The feasibility test min(recipe_counts.values()) >= 0 of process_oil,
expressed as an all-components check (equivalent for the nonempty value
lists that arise, since min of a nonempty list is >= 0 iff every element
is). -/
def feasibleB (vals : List ℚ) : Bool := vals.all (fun v => decide (0 ≤ v))

/-- The selection loop of process_oil: keep the first feasible combo whose
rank is strictly below the best rank seen so far. -/
def bestLoop : List (List (String × ℚ)) → Option (List (String × ℚ) × ℚ) →
    Option (List (String × ℚ) × ℚ)
  | [], acc => acc
  | combo :: rest, acc =>
    if feasibleB (combo.map Prod.snd) then
      let r := rank_recipe_combo combo
      match acc with
      | none => bestLoop rest (some (combo, r))
      | some (b, br) =>
        if r < br then bestLoop rest (some (combo, r)) else bestLoop rest (some (b, br))
    else bestLoop rest acc

/-- The ordered virtual output items: catalog entries whose production kind
is OilProcessing, in catalog order. -/
def oilOutputs (recipes : List (String × Recipe)) : List String :=
  (recipes.filter (fun nr => nr.2.production == "OilProcessing")).map Prod.fst

/-- The target vector b: the already-resolved demand of each virtual output
item, defaulting to 0 for items absent from the demand map. -/
def oilCounts (products : DMap) (recipes : List (String × Recipe)) : List ℚ :=
  (oilOutputs recipes).map (fun p => lookupD products p)

/-- The candidate recipes: catalog entries named in OIL_PROCESSING_RECIPES,
in catalog order. -/
def oilAvailable (recipes : List (String × Recipe)) : List (String × Recipe) :=
  recipes.filter (fun nr => OIL_PROCESSING_RECIPES.contains nr.1)

/-- The candidate run-rate combos considered by process_oil: for each
invertible subset, the recipe names zipped with the solved vector
inverse-matrix times b. -/
def oilCombos (products : DMap) (recipes : List (String × Recipe)) :
    Except String (List (List (String × ℚ))) :=
  match create_recipe_matrices (oilAvailable recipes) (oilOutputs recipes) with
  | Except.error e => Except.error e
  | Except.ok ms =>
    Except.ok (ms.map (fun rm => rm.1.zip (matVec rm.2 (oilCounts products recipes))))

/-- The final loop of process_oil: resolve the ingredient demand of every
chosen recipe with nonzero run rate back into the demand map. -/
def applyBest (fuel : Nat) (recipes : List (String × Recipe)) :
    List (String × ℚ) → DMap → Option DMap
  | [], products => some products
  | (p, c) :: rest, products =>
    if c ≠ 0 then
      match create_totals fuel p c recipes products with
      | none => none
      | some products2 => applyBest fuel recipes rest products2
    else applyBest fuel recipes rest products

/-- process_oil of production_calc.py.  The outer Option is the fuel bound
inherited from create_totals (none only when fuel runs out); the Except
layer carries the two fatal errors of the source: the ValueError for an
invalid oil-processing recipe and the RuntimeError when no combination is
feasible. -/
def process_oil (fuel : Nat) (products : DMap) (recipes : List (String × Recipe)) :
    Option (Except String DMap) :=
  match oilCombos products recipes with
  | Except.error e => some (Except.error e)
  | Except.ok combos =>
    match bestLoop combos none with
    | none => some (Except.error "No valid recipe combination found!")
    | some br =>
      match applyBest fuel recipes br.1 products with
      | none => none
      | some products2 => some (Except.ok products2)

/-- Modelled from the spec: the feasibility predicate the specification
describes, with an explicit numerical tolerance eps under which the absolute
value of a component is treated as 0 (so a tiny negative component does not
make the subset infeasible). -/
def specFeasible (eps : ℚ) (vals : List ℚ) : Bool :=
  vals.all (fun v => decide (0 ≤ v) || decide (|v| < eps))

/-- Whether a mask denotes a size-matching candidate subset whose matrix is
singular (built successfully but not invertible). -/
def isSingularMask (avail : List (String × Recipe)) (outs : List String)
    (mask : Nat) : Bool :=
  decide ((maskFilter mask avail).length = outs.length) &&
    (match buildMatrix (maskFilter mask avail) outs with
     | Except.ok M => (matInv M).isNone
     | Except.error _ => false)

instance {ε α : Type} [DecidableEq ε] [DecidableEq α] : DecidableEq (Except ε α) :=
  fun a b =>
    match a, b with
    | Except.error e, Except.error f =>
      if h : e = f then Decidable.isTrue (congrArg Except.error h)
      else Decidable.isFalse (fun hh => h (Except.error.inj hh))
    | Except.error _, Except.ok _ => Decidable.isFalse (fun hh => Except.noConfusion hh)
    | Except.ok _, Except.error _ => Decidable.isFalse (fun hh => Except.noConfusion hh)
    | Except.ok a1, Except.ok b1 =>
      if h : a1 = b1 then Decidable.isTrue (congrArg Except.ok h)
      else Decidable.isFalse (fun hh => h (Except.ok.inj hh))

/-- A one-virtual-item catalog whose single candidate recipe is a net
consumer of the virtual item Gas. -/
def gasCatalog : List (String × Recipe) :=
  [("Gas", { production := "OilProcessing" }),
   ("HeavyOil2SolidFuel", { ingredients := [("Gas", 2)], breakdown := some [("Gas", 1)] })]

/-- A two-virtual-item pool: each cracking recipe yields 2 of its own oil and
consumes 1 of the other (plus water). -/
def poolCatalog : List (String × Recipe) :=
  [("HeavyOil", { production := "OilProcessing" }),
   ("LightOil", { production := "OilProcessing" }),
   ("HeavyOilCracking",
     { ingredients := [("LightOil", 1), ("Water", 1)], breakdown := some [("HeavyOil", 2)] }),
   ("LightOilCracking",
     { ingredients := [("HeavyOil", 1), ("Water", 1)], breakdown := some [("LightOil", 2)] })]

/-- A catalog whose only candidate recipe lacks a breakdown mapping. -/
def badCatalog : List (String × Recipe) :=
  [("Gas", { production := "OilProcessing" }),
   ("BasicOilProcessing", { ingredients := [("Crude", 1)] })]

/-- A catalog whose only candidate subset has a singular matrix (the recipe
consumes exactly what it yields). -/
def singularCatalog : List (String × Recipe) :=
  [("Gas", { production := "OilProcessing" }),
   ("HeavyOilCracking", { ingredients := [("Gas", 1)], breakdown := some [("Gas", 1)] })]

/-- The matrices list create_recipe_matrices returns on the pool catalog: the
single size-2 subset and the inverse of its net-production matrix. -/
def poolMatrices : List (List String × List (List ℚ)) :=
  [(["HeavyOilCracking", "LightOilCracking"],
    [[2 / 3, 1 / 3], [1 / 3, 2 / 3]])]

theorem lookupD_nil (k : String) : lookupD [] k = 0 := rfl

theorem lookupL_addTo_self (m : DMap) (k : String) (v : ℚ) :
    lookupL (addTo m k v) k = some (lookupD m k + v) := by
  induction m with
  | nil => simp [addTo, lookupL, lookupD]
  | cons hd t ih =>
    obtain ⟨k2, v2⟩ := hd
    by_cases hk : k2 = k
    · subst hk; simp [addTo, lookupL, lookupD]
    · simp [addTo, lookupL, lookupD, hk, ih]

theorem lookupL_addTo_ne (m : DMap) (k : String) (v : ℚ) (k2 : String) (h : k2 ≠ k) :
    lookupL (addTo m k v) k2 = lookupL m k2 := by
  induction m with
  | nil => simp [addTo, lookupL, Ne.symm h]
  | cons hd t ih =>
    obtain ⟨k3, v3⟩ := hd
    by_cases hk : k3 = k
    · subst hk
      have : k3 ≠ k2 := fun hh => h hh.symm
      simp [addTo, lookupL, this]
    · by_cases hq : k3 = k2
      · subst hq; simp [addTo, lookupL, hk]
      · simp [addTo, lookupL, hk, hq, ih]

theorem lookupD_addTo (m : DMap) (k : String) (v : ℚ) (k2 : String) :
    lookupD (addTo m k v) k2 = lookupD m k2 + if k2 = k then v else 0 := by
  by_cases hk : k2 = k
  · subst hk; simp [lookupD, lookupL_addTo_self m k2 v]
  · simp [lookupD, lookupL_addTo_ne m k v k2 hk, hk]

theorem ctl_shift (step : String → ℚ → DMap → Option DMap)
    (hstep : ∀ i c m d m2, step i c m = some d →
      ∃ d2, step i c m2 = some d2 ∧
        ∀ k, lookupD d2 k + lookupD m k = lookupD d k + lookupD m2 k) :
    ∀ ings c o m d m2, ctIngredients step ings c o m = some d →
      ∃ d2, ctIngredients step ings c o m2 = some d2 ∧
        ∀ k, lookupD d2 k + lookupD m k = lookupD d k + lookupD m2 k := by
  intro ings
  induction ings with
  | nil =>
    intro c o m d m2 h
    simp only [ctIngredients, Option.some.injEq] at h
    subst h
    exact ⟨m2, rfl, fun k => by ring⟩
  | cons hd tl ih =>
    obtain ⟨i, q⟩ := hd
    intro c o m d m2 h
    simp only [ctIngredients] at h
    cases hs : step i (c * q / o) m with
    | none => rw [hs] at h; cases h
    | some mid =>
      rw [hs] at h
      obtain ⟨mid2, hmid2, hrel⟩ := hstep i (c * q / o) m mid m2 hs
      obtain ⟨d2, hd2, hrel2⟩ := ih c o mid d mid2 h
      refine ⟨d2, ?_, ?_⟩
      · simp only [ctIngredients]; rw [hmid2]; exact hd2
      · intro k
        have h1 := hrel k
        have h2 := hrel2 k
        linarith

theorem ct_shift (R : List (String × Recipe)) :
    ∀ fuel p c m d m2, create_totals fuel p c R m = some d →
      ∃ d2, create_totals fuel p c R m2 = some d2 ∧
        ∀ k, lookupD d2 k + lookupD m k = lookupD d k + lookupD m2 k := by
  intro fuel
  induction fuel with
  | zero => intro p c m d m2 h; simp [create_totals] at h
  | succ fuel ih =>
    intro p c m d m2 h
    simp only [create_totals] at h
    cases hl : lookupL R p with
    | none =>
      rw [hl] at h
      simp only [Option.some.injEq] at h
      subst h
      refine ⟨addTo m2 p c, ?_, ?_⟩
      · simp only [create_totals]; rw [hl]
      · intro k
        rw [lookupD_addTo, lookupD_addTo]
        ring
    | some r =>
      rw [hl] at h
      obtain ⟨d2, hd2, hrel⟩ :=
        ctl_shift _ (fun i c2 mm dd mm2 hh => ih i c2 mm dd mm2 hh)
          r.ingredients c r.output (addTo m p c) d (addTo m2 p c) h
      refine ⟨d2, ?_, ?_⟩
      · simp only [create_totals]; rw [hl]; exact hd2
      · intro k
        have h1 := hrel k
        rw [lookupD_addTo, lookupD_addTo] at h1
        linarith

/-- C1: create_totals adds the rate to the entry of the item (creating it at
zero if absent), recurses over every ingredient of a catalog recipe at rate
count * qty / output, terminates without recursion when the item has no
recipe, and on the two-recipe example catalog resolving Gear at rate 2
yields exactly Gear 2, IronPlate 4, IronOre 4. -/
theorem claim_C1 :
    (∀ fuel p c R m, lookupL R p = none →
        create_totals (fuel + 1) p c R m = some (addTo m p c)) ∧
    (∀ fuel p c R m r, lookupL R p = some r →
        create_totals (fuel + 1) p c R m =
          ctIngredients (fun i c2 acc => create_totals fuel i c2 R acc)
            r.ingredients c r.output (addTo m p c)) ∧
    (∀ step i q rest c o acc,
        ctIngredients step ((i, q) :: rest) c o acc =
          match step i (c * q / o) acc with
          | none => none
          | some acc2 => ctIngredients step rest c o acc2) ∧
    (∀ m p c, lookupD (addTo m p c) p = lookupD m p + c) ∧
    create_totals_entry 10 "Gear" 2 exampleCatalog none =
      some [("Gear", 2), ("IronPlate", 4), ("IronOre", 4)] := by
  refine ⟨?_, ?_, ?_, ?_, by decide⟩
  · intro fuel p c R m h
    simp only [create_totals]
    rw [h]
  · intro fuel p c R m r h
    simp only [create_totals]
    rw [h]
  · intro step i q rest c o acc
    rfl
  · intro m p c
    rw [lookupD_addTo]
    simp

/-- Witness for C1: the no-recipe branch of create_totals at the concrete
raw item IronOre of the example catalog. -/
theorem claim_C1_witness :
    lookupL exampleCatalog "IronOre" = none ∧
    create_totals 1 "IronOre" 4 exampleCatalog [] = some (addTo [] "IronOre" 4) :=
  ⟨by decide, claim_C1.1 0 "IronOre" 4 exampleCatalog [] (by decide)⟩

/-- C7: resolution accumulates additively: resolving into a pre-existing map
gives, at every key, the pre-existing value plus the value of resolving into
a fresh empty map; on the diamond catalog the two paths to X sum to 2. -/
theorem claim_C7 :
    (∀ fuel p c R m d, create_totals fuel p c R [] = some d →
        ∃ d2, create_totals fuel p c R m = some d2 ∧
          ∀ k, lookupD d2 k = lookupD m k + lookupD d k) ∧
    create_totals 10 "Root" 1 diamondCatalog [] =
      some [("Root", 1), ("A", 1), ("X", 2), ("B", 1)] := by
  refine ⟨?_, by decide⟩
  intro fuel p c R m d h
  obtain ⟨d2, hd2, hrel⟩ := ct_shift R fuel p c [] d m h
  refine ⟨d2, hd2, fun k => ?_⟩
  have h1 := hrel k
  rw [lookupD_nil] at h1
  linarith

/-- Witness for C7 at the example catalog with a nonempty pre-existing map. -/
theorem claim_C7_witness :
    ∃ d2, create_totals 10 "Gear" 2 exampleCatalog [("IronOre", 5)] = some d2 ∧
      ∀ k, lookupD d2 k =
        lookupD [("IronOre", 5)] k +
          lookupD [("Gear", 2), ("IronPlate", 4), ("IronOre", 4)] k :=
  claim_C7.1 10 "Gear" 2 exampleCatalog [("IronOre", 5)]
    [("Gear", 2), ("IronPlate", 4), ("IronOre", 4)] (by decide)

/-- C8: an item absent from the catalog is raw: it receives exactly the
demanded rate (added to whatever was already accumulated for it) and no
other entry of the map is created or changed. -/
theorem claim_C8 :
    ∀ fuel p c R m, lookupL R p = none →
      create_totals (fuel + 1) p c R m = some (addTo m p c) ∧
      lookupD (addTo m p c) p = lookupD m p + c ∧
      ∀ k, k ≠ p → lookupL (addTo m p c) k = lookupL m k := by
  intro fuel p c R m h
  refine ⟨?_, ?_, ?_⟩
  · simp only [create_totals]; rw [h]
  · rw [lookupD_addTo]; simp
  · intro k hk
    exact lookupL_addTo_ne m p c k hk

/-- Witness for C8: IronOre is absent from the example catalog; resolving it
at rate 4 into a map that already holds Gear leaves Gear untouched. -/
theorem claim_C8_witness :
    create_totals 1 "IronOre" 4 exampleCatalog [("Gear", 2)] =
      some (addTo [("Gear", 2)] "IronOre" 4) ∧
    lookupD (addTo [("Gear", 2)] "IronOre" 4) "IronOre" =
      lookupD [("Gear", 2)] "IronOre" + 4 ∧
    ∀ k, k ≠ "IronOre" →
      lookupL (addTo [("Gear", 2)] "IronOre" 4) k = lookupL [("Gear", 2)] k :=
  claim_C8 0 "IronOre" 4 exampleCatalog [("Gear", 2)] (by decide)

/-- C9: the resolver is deterministic across runs: two calls with identical
root, rate and catalog, each with the accumulator omitted (None), denote the
same value, and the omitted accumulator is a fresh empty map, so no state
carries over between calls. -/
theorem claim_C9 :
    ∀ fuel p c R,
      create_totals_entry fuel p c R none = create_totals_entry fuel p c R none ∧
      create_totals_entry fuel p c R none = create_totals fuel p c R [] :=
  fun _ _ _ _ => ⟨rfl, rfl⟩

theorem feasibleB_iff (vals : List ℚ) : feasibleB vals = true ↔ ∀ v ∈ vals, 0 ≤ v := by
  simp [feasibleB]

theorem bestLoop_none_of_infeasible :
    ∀ combos, (∀ c ∈ combos, feasibleB (c.map Prod.snd) = false) →
      bestLoop combos none = none := by
  intro combos
  induction combos with
  | nil => intro _; rfl
  | cons c rest ih =>
    intro h
    simp only [bestLoop]
    rw [if_neg (by simp [h c (List.mem_cons_self c rest)])]
    exact ih (fun c2 hc2 => h c2 (List.mem_cons_of_mem c hc2))

theorem bestLoop_acc_spec :
    ∀ combos b0 r0 b br,
      bestLoop combos (some (b0, r0)) = some (b, br) →
      br ≤ r0 ∧
      (∀ c ∈ combos, feasibleB (c.map Prod.snd) = true → br ≤ rank_recipe_combo c) ∧
      ((b = b0 ∧ br = r0) ∨
        ∃ pre post, combos = pre ++ b :: post ∧
          feasibleB (b.map Prod.snd) = true ∧ br = rank_recipe_combo b ∧ br < r0 ∧
          (∀ c ∈ pre, feasibleB (c.map Prod.snd) = true → br < rank_recipe_combo c) ∧
          (∀ c ∈ post, feasibleB (c.map Prod.snd) = true → br ≤ rank_recipe_combo c)) := by
  intro combos
  induction combos with
  | nil =>
    intro b0 r0 b br h
    simp only [bestLoop, Option.some.injEq, Prod.mk.injEq] at h
    obtain ⟨hb, hbr⟩ := h
    subst hb; subst hbr
    exact ⟨le_refl _, by simp, Or.inl ⟨rfl, rfl⟩⟩
  | cons c rest ih =>
    intro b0 r0 b br h
    simp only [bestLoop] at h
    by_cases hf : feasibleB (c.map Prod.snd) = true
    · rw [if_pos hf] at h
      by_cases hr : rank_recipe_combo c < r0
      · rw [if_pos hr] at h
        obtain ⟨h1, h2, h3⟩ := ih c (rank_recipe_combo c) b br h
        refine ⟨le_trans h1 (le_of_lt hr), ?_, ?_⟩
        · intro c2 hc2 hfc2
          rcases List.mem_cons.mp hc2 with hc2 | hc2
          · rw [hc2]; exact h1
          · exact h2 c2 hc2 hfc2
        · right
          cases h3 with
          | inl hl =>
            obtain ⟨hb, hbr⟩ := hl
            subst hb
            refine ⟨[], rest, by simp, hf, hbr, by rw [hbr]; exact hr, by simp, h2⟩
          | inr hrr =>
            obtain ⟨pre, post, heq, hfb, hbr, hlt, hpre, hpost⟩ := hrr
            refine ⟨c :: pre, post, by rw [heq]; rfl, hfb, hbr, lt_trans hlt hr, ?_, hpost⟩
            intro c2 hc2 hfc2
            rcases List.mem_cons.mp hc2 with hc2 | hc2
            · rw [hc2]; exact hlt
            · exact hpre c2 hc2 hfc2
      · rw [if_neg hr] at h
        obtain ⟨h1, h2, h3⟩ := ih b0 r0 b br h
        have hr2 : r0 ≤ rank_recipe_combo c := not_lt.mp hr
        refine ⟨h1, ?_, ?_⟩
        · intro c2 hc2 hfc2
          rcases List.mem_cons.mp hc2 with hc2 | hc2
          · rw [hc2]; exact le_trans h1 hr2
          · exact h2 c2 hc2 hfc2
        · cases h3 with
          | inl hl => exact Or.inl hl
          | inr hrr =>
            obtain ⟨pre, post, heq, hfb, hbr, hlt, hpre, hpost⟩ := hrr
            refine Or.inr ⟨c :: pre, post, by rw [heq]; rfl, hfb, hbr, hlt, ?_, hpost⟩
            intro c2 hc2 hfc2
            rcases List.mem_cons.mp hc2 with hc2 | hc2
            · rw [hc2]; exact lt_of_lt_of_le hlt hr2
            · exact hpre c2 hc2 hfc2
    · rw [if_neg hf] at h
      obtain ⟨h1, h2, h3⟩ := ih b0 r0 b br h
      refine ⟨h1, ?_, ?_⟩
      · intro c2 hc2 hfc2
        rcases List.mem_cons.mp hc2 with hc2 | hc2
        · exact absurd (hc2 ▸ hfc2) hf
        · exact h2 c2 hc2 hfc2
      · cases h3 with
        | inl hl => exact Or.inl hl
        | inr hrr =>
          obtain ⟨pre, post, heq, hfb, hbr, hlt, hpre, hpost⟩ := hrr
          refine Or.inr ⟨c :: pre, post, by rw [heq]; rfl, hfb, hbr, hlt, ?_, hpost⟩
          intro c2 hc2 hfc2
          rcases List.mem_cons.mp hc2 with hc2 | hc2
          · exact absurd (hc2 ▸ hfc2) hf
          · exact hpre c2 hc2 hfc2

theorem bestLoop_spec :
    ∀ combos b br, bestLoop combos none = some (b, br) →
      feasibleB (b.map Prod.snd) = true ∧
      br = rank_recipe_combo b ∧
      (∀ c ∈ combos, feasibleB (c.map Prod.snd) = true → br ≤ rank_recipe_combo c) ∧
      ∃ pre post, combos = pre ++ b :: post ∧
        ∀ c ∈ pre, feasibleB (c.map Prod.snd) = true → br < rank_recipe_combo c := by
  intro combos
  induction combos with
  | nil => intro b br h; simp [bestLoop] at h
  | cons c rest ih =>
    intro b br h
    simp only [bestLoop] at h
    by_cases hf : feasibleB (c.map Prod.snd) = true
    · rw [if_pos hf] at h
      obtain ⟨h1, h2, h3⟩ := bestLoop_acc_spec rest c (rank_recipe_combo c) b br h
      cases h3 with
      | inl hl =>
        obtain ⟨hb, hbr⟩ := hl
        subst hb
        refine ⟨hf, hbr, ?_, [], rest, rfl, by simp⟩
        intro c2 hc2 hfc2
        rcases List.mem_cons.mp hc2 with hc2 | hc2
        · rw [hc2, hbr]
        · exact h2 c2 hc2 hfc2
      | inr hrr =>
        obtain ⟨pre, post, heq, hfb, hbr, hlt, hpre, hpost⟩ := hrr
        refine ⟨hfb, hbr, ?_, c :: pre, post, by rw [heq]; rfl, ?_⟩
        · intro c2 hc2 hfc2
          rcases List.mem_cons.mp hc2 with hc2 | hc2
          · rw [hc2]; exact le_of_lt hlt
          · exact h2 c2 hc2 hfc2
        · intro c2 hc2 hfc2
          rcases List.mem_cons.mp hc2 with hc2 | hc2
          · rw [hc2]; exact hlt
          · exact hpre c2 hc2 hfc2
    · rw [if_neg hf] at h
      obtain ⟨hfb, hbr, hmin, pre, post, heq, hpre⟩ := ih b br h
      refine ⟨hfb, hbr, ?_, c :: pre, post, by rw [heq]; rfl, ?_⟩
      · intro c2 hc2 hfc2
        rcases List.mem_cons.mp hc2 with hc2 | hc2
        · exact absurd (hc2 ▸ hfc2) hf
        · exact hmin c2 hc2 hfc2
      · intro c2 hc2 hfc2
        rcases List.mem_cons.mp hc2 with hc2 | hc2
        · exact absurd (hc2 ▸ hfc2) hf
        · exact hpre c2 hc2 hfc2

/-- Counterexample to C2: on a catalog whose single invertible candidate
subset solves to the vector with one component of minus one trillionth, the
component is within any plausible round-off tolerance (its absolute value is
below eps equal to one billionth), so under the claim the subset would be
feasible; the code applies no tolerance, treats the subset as infeasible,
and aborts with the no-valid-combination error. -/
theorem claim_C2_counterexample :
    oilCombos [("Gas", 1 / 1000000000000)] gasCatalog =
      Except.ok [[("HeavyOil2SolidFuel", -(1 / 1000000000000))]] ∧
    specFeasible (1 / 1000000000) [-(1 / 1000000000000)] = true ∧
    feasibleB [-(1 / 1000000000000)] = false ∧
    process_oil 10 [("Gas", 1 / 1000000000000)] gasCatalog =
      some (Except.error "No valid recipe combination found!") :=
  ⟨by decide, by decide, by decide, by decide⟩

/-- C2 as amended: a candidate subset with invertible matrix is feasible iff
every component of the solved vector is at least 0 exactly: no numerical
tolerance is applied, a strictly negative component of any magnitude makes
the subset infeasible, and any combo the selection loop returns has all
components at least 0. -/
theorem claim_C2 :
    (∀ vals : List ℚ, feasibleB vals = true ↔ ∀ v ∈ vals, 0 ≤ v) ∧
    (∀ (vals : List ℚ) (d : ℚ), 0 < d → -d ∈ vals → feasibleB vals = false) ∧
    (∀ combos b br, bestLoop combos none = some (b, br) →
        feasibleB (b.map Prod.snd) = true) := by
  refine ⟨feasibleB_iff, ?_, ?_⟩
  · intro vals d hd hmem
    cases hfb : feasibleB vals with
    | false => rfl
    | true =>
      have := (feasibleB_iff vals).mp hfb (-d) hmem
      linarith
  · intro combos b br h
    exact (bestLoop_spec combos b br h).1

/-- Witness for C2 at concrete inputs: a list holding minus one is
infeasible, and the loop on a single feasible combo returns it. -/
theorem claim_C2_witness :
    feasibleB [-(1 : ℚ)] = false ∧
    feasibleB [("BasicOilProcessing", (5 : ℚ))].unzip.2 = true :=
  ⟨claim_C2.2.1 [-(1 : ℚ)] 1 (by decide) (by decide),
   by
    have := claim_C2.2.2 [[("BasicOilProcessing", (5 : ℚ))]]
      [("BasicOilProcessing", (5 : ℚ))] 5 (by decide)
    simpa using this⟩

/-- C4: the selection loop returns a feasible combo whose rank is minimal
among all feasible combos, and every feasible combo enumerated strictly
before it has strictly larger rank (ties are kept with the first found);
the rank is the sum of the run rates of the two preferred recipes, each
contributing nothing when absent. -/
theorem claim_C4 :
    (∀ combos b br, bestLoop combos none = some (b, br) →
        feasibleB (b.map Prod.snd) = true ∧
        br = rank_recipe_combo b ∧
        (∀ c ∈ combos, feasibleB (c.map Prod.snd) = true → br ≤ rank_recipe_combo c) ∧
        ∃ pre post, combos = pre ++ b :: post ∧
          ∀ c ∈ pre, feasibleB (c.map Prod.snd) = true → br < rank_recipe_combo c) ∧
    (∀ combo, rank_recipe_combo combo =
        (lookupL combo "BasicOilProcessing").getD 0 +
          (lookupL combo "AdvancedOilProcessing").getD 0) := by
  refine ⟨bestLoop_spec, ?_⟩
  intro combo
  simp only [rank_recipe_combo]
  cases l1 : lookupL combo "BasicOilProcessing" <;>
    cases l2 : lookupL combo "AdvancedOilProcessing" <;>
      simp [l1, l2]

/-- Witness for C4: two feasible one-recipe combos with ranks 5 and 0; the
loop returns the second, the strictly cheaper one. -/
theorem claim_C4_witness :
    feasibleB ([("LightOilCracking", (1 : ℚ))].map Prod.snd) = true ∧
    (0 : ℚ) = rank_recipe_combo [("LightOilCracking", (1 : ℚ))] ∧
    (∀ c ∈ [[("BasicOilProcessing", (5 : ℚ))], [("LightOilCracking", (1 : ℚ))]],
        feasibleB (c.map Prod.snd) = true → (0 : ℚ) ≤ rank_recipe_combo c) ∧
    ∃ pre post,
      [[("BasicOilProcessing", (5 : ℚ))], [("LightOilCracking", (1 : ℚ))]] =
        pre ++ [("LightOilCracking", (1 : ℚ))] :: post ∧
      ∀ c ∈ pre, feasibleB (c.map Prod.snd) = true → (0 : ℚ) < rank_recipe_combo c :=
  claim_C4.1 [[("BasicOilProcessing", (5 : ℚ))], [("LightOilCracking", (1 : ℚ))]]
    [("LightOilCracking", (1 : ℚ))] 0 (by decide)

/-- C5: when every candidate combo is infeasible, process_oil reports the
fatal no-valid-recipe-combination error and returns no demand map at all. -/
theorem claim_C5 :
    ∀ fuel products recipes combos,
      oilCombos products recipes = Except.ok combos →
      (∀ c ∈ combos, feasibleB (c.map Prod.snd) = false) →
      process_oil fuel products recipes =
        some (Except.error "No valid recipe combination found!") := by
  intro fuel products recipes combos h hall
  have hb := bestLoop_none_of_infeasible combos hall
  simp only [process_oil, h, hb]

/-- Witness for C5: the gas catalog at demand 1 has a single candidate combo,
run at rate minus one, hence infeasible, and process_oil aborts. -/
theorem claim_C5_witness :
    process_oil 10 [("Gas", 1)] gasCatalog =
      some (Except.error "No valid recipe combination found!") :=
  claim_C5 10 [("Gas", 1)] gasCatalog [[("HeavyOil2SolidFuel", -1)]]
    (by decide) (by decide)

theorem buildElement_some (r : Recipe) (br : List (String × ℚ)) (out : String)
    (hbr : r.breakdown = some br) :
    buildElement r out = Except.ok (lookupD br out - lookupD r.ingredients out) := by
  simp only [buildElement, hbr]
  cases l1 : lookupL r.ingredients out <;> cases l2 : lookupL br out <;>
    simp [lookupD, l1, l2] <;> ring

theorem buildElement_err (r : Recipe) (out : String) (e : String)
    (h : buildElement r out = Except.error e) :
    e = "Not a valid Oil Processing recipe" := by
  cases hbr : r.breakdown with
  | none => simp only [buildElement, hbr, Except.error.injEq] at h; exact h.symm
  | some br => rw [buildElement_some r br out hbr] at h; cases h

theorem mapE_err {α β : Type} (f : α → Except String β) :
    ∀ l e, mapE f l = Except.error e → ∃ a ∈ l, f a = Except.error e := by
  intro l
  induction l with
  | nil => intro e h; cases h
  | cons a as ih =>
    intro e h
    simp only [mapE] at h
    cases hf : f a with
    | error e2 =>
      rw [hf] at h
      cases h
      exact ⟨a, List.mem_cons_self a as, hf⟩
    | ok b =>
      rw [hf] at h
      cases hm : mapE f as with
      | error e2 =>
        rw [hm] at h
        cases h
        obtain ⟨a2, ha2, hfa2⟩ := ih e hm
        exact ⟨a2, List.mem_cons_of_mem a ha2, hfa2⟩
      | ok bs => rw [hm] at h; cases h

theorem mapE_err_of_mem {α β : Type} (f : α → Except String β) :
    ∀ l a, a ∈ l → (∃ e0, f a = Except.error e0) → ∃ e, mapE f l = Except.error e := by
  intro l
  induction l with
  | nil => intro a ha; cases ha
  | cons hd tl ih =>
    intro a ha he
    simp only [mapE]
    cases hf : f hd with
    | error e2 => exact ⟨e2, rfl⟩
    | ok b =>
      rcases List.mem_cons.mp ha with ha | ha
      · obtain ⟨e0, he0⟩ := he
        rw [ha] at he0
        rw [hf] at he0
        cases he0
      · obtain ⟨e, hme⟩ := ih a ha he
        rw [hme]
        exact ⟨e, rfl⟩

theorem buildMatrix_err_msg (subset : List (String × Recipe)) (outs : List String)
    (e : String) (h : buildMatrix subset outs = Except.error e) :
    e = "Not a valid Oil Processing recipe" := by
  obtain ⟨out, _, hrow⟩ := mapE_err _ outs e h
  obtain ⟨nr, _, hel⟩ := mapE_err _ subset e hrow
  exact buildElement_err nr.2 out e hel

theorem buildMatrix_bad (subset : List (String × Recipe)) (outs : List String)
    (hne : outs ≠ [])
    (hbad : ∃ nr ∈ subset, nr.2.breakdown = none) :
    buildMatrix subset outs = Except.error "Not a valid Oil Processing recipe" := by
  obtain ⟨nr, hmem, hnone⟩ := hbad
  cases outs with
  | nil => exact absurd rfl hne
  | cons o os =>
    have hrow : ∃ e, mapE (fun nr2 => buildElement nr2.2 o) subset = Except.error e := by
      refine mapE_err_of_mem _ subset nr hmem ?_
      refine ⟨"Not a valid Oil Processing recipe", ?_⟩
      simp [buildElement, hnone]
    obtain ⟨e, he⟩ := hrow
    have hmat : ∃ e2, buildMatrix subset (o :: os) = Except.error e2 := by
      refine mapE_err_of_mem _ (o :: os) o (List.mem_cons_self o os) ⟨e, he⟩
    obtain ⟨e2, he2⟩ := hmat
    rw [he2, buildMatrix_err_msg subset (o :: os) e2 he2]

theorem mapE_ok_of_all {α β : Type} (f : α → Except String β) (g : α → β)
    (hfg : ∀ a, f a = Except.ok (g a)) :
    ∀ l, mapE f l = Except.ok (l.map g) := by
  intro l
  induction l with
  | nil => rfl
  | cons a as ih => simp only [mapE, hfg a, ih, List.map]

theorem buildRow_ok (out : String) :
    ∀ subset : List (String × Recipe), (∀ nr ∈ subset, nr.2.breakdown ≠ none) →
      mapE (fun nr => buildElement nr.2 out) subset =
        Except.ok (subset.map (fun nr =>
          lookupD (nr.2.breakdown.getD []) out - lookupD nr.2.ingredients out)) := by
  intro subset
  induction subset with
  | nil => intro _; rfl
  | cons nr rest ih =>
    intro hall
    have hne := hall nr (List.mem_cons_self nr rest)
    obtain ⟨br, hbr⟩ := Option.ne_none_iff_exists.mp hne
    have hel := buildElement_some nr.2 br out hbr.symm
    simp only [mapE, hel, List.map]
    rw [ih (fun nr2 h2 => hall nr2 (List.mem_cons_of_mem nr h2))]
    simp [← hbr]

theorem buildMatrix_of_breakdowns (subset : List (String × Recipe)) (outs : List String)
    (hall : ∀ nr ∈ subset, nr.2.breakdown ≠ none) :
    buildMatrix subset outs = Except.ok (outs.map (fun out => subset.map (fun nr =>
      lookupD (nr.2.breakdown.getD []) out - lookupD nr.2.ingredients out))) :=
  mapE_ok_of_all _ _ (fun out => buildRow_ok out subset hall) outs

theorem maskFilter_subset {α : Type} (mask : Nat) (l : List α) :
    ∀ x ∈ maskFilter mask l, x ∈ l := by
  intro x hx
  simp only [maskFilter, List.mem_map, List.mem_filter] at hx
  obtain ⟨⟨i, y⟩, ⟨hmem, _⟩, hy⟩ := hx
  have hget : l.get? i = some y := List.mk_mem_enum_iff_get?.mp hmem
  rw [show y = x from hy] at hget
  exact List.get?_mem hget

theorem isSingularMask_eq_true (avail : List (String × Recipe)) (outs : List String)
    (mask : Nat) :
    isSingularMask avail outs mask = true ↔
      (maskFilter mask avail).length = outs.length ∧
      ∃ M, buildMatrix (maskFilter mask avail) outs = Except.ok M ∧ matInv M = none := by
  simp only [isSingularMask, Bool.and_eq_true, decide_eq_true_eq]
  constructor
  · rintro ⟨hs, hm⟩
    refine ⟨hs, ?_⟩
    cases hbm : buildMatrix (maskFilter mask avail) outs with
    | error e => rw [hbm] at hm; cases hm
    | ok M =>
      rw [hbm] at hm
      exact ⟨M, rfl, Option.isNone_iff_eq_none.mp hm⟩
  · rintro ⟨hs, M, hM, hinv⟩
    refine ⟨hs, ?_⟩
    rw [hM]
    simp [hinv]

theorem crmGo_cons_skip (avail : List (String × Recipe)) (outs : List String)
    (m : Nat) (rest : List Nat) (hs : ¬(maskFilter m avail).length = outs.length) :
    crmGo avail outs (m :: rest) = crmGo avail outs rest := by
  simp only [crmGo, if_neg hs]

theorem crmGo_cons_err (avail : List (String × Recipe)) (outs : List String)
    (m : Nat) (rest : List Nat) (e : String)
    (hs : (maskFilter m avail).length = outs.length)
    (hbm : buildMatrix (maskFilter m avail) outs = Except.error e) :
    crmGo avail outs (m :: rest) = Except.error e := by
  simp only [crmGo, if_pos hs, hbm]

theorem crmGo_cons_sing (avail : List (String × Recipe)) (outs : List String)
    (m : Nat) (rest : List Nat) (M : List (List ℚ))
    (hs : (maskFilter m avail).length = outs.length)
    (hbm : buildMatrix (maskFilter m avail) outs = Except.ok M)
    (hinv : matInv M = none) :
    crmGo avail outs (m :: rest) = crmGo avail outs rest := by
  simp only [crmGo, if_pos hs, hbm, hinv]

theorem crmGo_cons_ok (avail : List (String × Recipe)) (outs : List String)
    (m : Nat) (rest : List Nat) (M MI : List (List ℚ))
    (hs : (maskFilter m avail).length = outs.length)
    (hbm : buildMatrix (maskFilter m avail) outs = Except.ok M)
    (hinv : matInv M = some MI) :
    crmGo avail outs (m :: rest) =
      match crmGo avail outs rest with
      | Except.error e => Except.error e
      | Except.ok l => Except.ok (((maskFilter m avail).map Prod.fst, MI) :: l) := by
  simp only [crmGo, if_pos hs, hbm, hinv]

theorem crmGo_err_msg (avail : List (String × Recipe)) (outs : List String) :
    ∀ masks e, crmGo avail outs masks = Except.error e →
      e = "Not a valid Oil Processing recipe" := by
  intro masks
  induction masks with
  | nil => intro e h; cases h
  | cons m rest ih =>
    intro e h
    by_cases hs : (maskFilter m avail).length = outs.length
    · cases hbm : buildMatrix (maskFilter m avail) outs with
      | error e2 =>
        rw [crmGo_cons_err avail outs m rest e2 hs hbm] at h
        injection h with h2
        rw [← h2]
        exact buildMatrix_err_msg _ _ e2 hbm
      | ok M =>
        cases hinv : matInv M with
        | none =>
          rw [crmGo_cons_sing avail outs m rest M hs hbm hinv] at h
          exact ih e h
        | some MI =>
          rw [crmGo_cons_ok avail outs m rest M MI hs hbm hinv] at h
          cases hrec : crmGo avail outs rest with
          | error e2 =>
            simp only [hrec] at h
            injection h with h2
            rw [← h2]
            exact ih e2 hrec
          | ok l =>
            simp only [hrec] at h
            cases h
    · rw [crmGo_cons_skip avail outs m rest hs] at h
      exact ih e h

theorem crmGo_err_exists (avail : List (String × Recipe)) (outs : List String) :
    ∀ masks mask, mask ∈ masks →
      (maskFilter mask avail).length = outs.length →
      (∃ e0, buildMatrix (maskFilter mask avail) outs = Except.error e0) →
      ∃ e, crmGo avail outs masks = Except.error e := by
  intro masks
  induction masks with
  | nil => intro mask hm; cases hm
  | cons m rest ih =>
    intro mask hm hsize hbad
    rcases List.mem_cons.mp hm with hm | hm
    · subst hm
      obtain ⟨e0, he0⟩ := hbad
      exact ⟨e0, crmGo_cons_err avail outs mask rest e0 hsize he0⟩
    · by_cases hs : (maskFilter m avail).length = outs.length
      · cases hbm : buildMatrix (maskFilter m avail) outs with
        | error e2 => exact ⟨e2, crmGo_cons_err avail outs m rest e2 hs hbm⟩
        | ok M =>
          cases hinv : matInv M with
          | none =>
            obtain ⟨e, he⟩ := ih mask hm hsize hbad
            exact ⟨e, by rw [crmGo_cons_sing avail outs m rest M hs hbm hinv]; exact he⟩
          | some MI =>
            obtain ⟨e, he⟩ := ih mask hm hsize hbad
            refine ⟨e, ?_⟩
            rw [crmGo_cons_ok avail outs m rest M MI hs hbm hinv]
            simp only [he]
      · obtain ⟨e, he⟩ := ih mask hm hsize hbad
        exact ⟨e, by rw [crmGo_cons_skip avail outs m rest hs]; exact he⟩

theorem crmGo_entry_len (avail : List (String × Recipe)) (outs : List String) :
    ∀ masks l, crmGo avail outs masks = Except.ok l →
      ∀ entry ∈ l, entry.1.length = outs.length := by
  intro masks
  induction masks with
  | nil =>
    intro l h
    cases h
    intro entry he
    cases he
  | cons m rest ih =>
    intro l h
    by_cases hs : (maskFilter m avail).length = outs.length
    · cases hbm : buildMatrix (maskFilter m avail) outs with
      | error e2 => rw [crmGo_cons_err avail outs m rest e2 hs hbm] at h; cases h
      | ok M =>
        cases hinv : matInv M with
        | none =>
          rw [crmGo_cons_sing avail outs m rest M hs hbm hinv] at h
          exact ih l h
        | some MI =>
          rw [crmGo_cons_ok avail outs m rest M MI hs hbm hinv] at h
          cases hrec : crmGo avail outs rest with
          | error e2 => simp only [hrec] at h; cases h
          | ok l2 =>
            simp only [hrec] at h
            injection h with h2
            rw [← h2]
            intro entry he
            rcases List.mem_cons.mp he with he | he
            · rw [he]
              simp [hs]
            · exact ih l2 hrec entry he
    · rw [crmGo_cons_skip avail outs m rest hs] at h
      exact ih l h

theorem crmGo_complete (avail : List (String × Recipe)) (outs : List String) :
    ∀ masks mask M MI l, mask ∈ masks →
      (maskFilter mask avail).length = outs.length →
      buildMatrix (maskFilter mask avail) outs = Except.ok M →
      matInv M = some MI →
      crmGo avail outs masks = Except.ok l →
      ((maskFilter mask avail).map Prod.fst, MI) ∈ l := by
  intro masks
  induction masks with
  | nil => intro mask M MI l hm; cases hm
  | cons m rest ih =>
    intro mask M MI l hm hsize hbm hinv h
    rcases List.mem_cons.mp hm with hm | hm
    · subst hm
      rw [crmGo_cons_ok avail outs mask rest M MI hsize hbm hinv] at h
      cases hrec : crmGo avail outs rest with
      | error e2 => simp only [hrec] at h; cases h
      | ok l2 =>
        simp only [hrec] at h
        injection h with h2
        rw [← h2]
        exact List.mem_cons_self _ _
    · by_cases hs : (maskFilter m avail).length = outs.length
      · cases hbm2 : buildMatrix (maskFilter m avail) outs with
        | error e2 => rw [crmGo_cons_err avail outs m rest e2 hs hbm2] at h; cases h
        | ok M2 =>
          cases hinv2 : matInv M2 with
          | none =>
            rw [crmGo_cons_sing avail outs m rest M2 hs hbm2 hinv2] at h
            exact ih mask M MI l hm hsize hbm hinv h
          | some MI2 =>
            rw [crmGo_cons_ok avail outs m rest M2 MI2 hs hbm2 hinv2] at h
            cases hrec : crmGo avail outs rest with
            | error e2 => simp only [hrec] at h; cases h
            | ok l2 =>
              simp only [hrec] at h
              injection h with h2
              rw [← h2]
              exact List.mem_cons_of_mem _ (ih mask M MI l2 hm hsize hbm hinv hrec)
      · rw [crmGo_cons_skip avail outs m rest hs] at h
        exact ih mask M MI l hm hsize hbm hinv h

theorem crmGo_skip_singular (avail : List (String × Recipe)) (outs : List String) :
    ∀ masks, crmGo avail outs masks =
      crmGo avail outs (masks.filter (fun m => !isSingularMask avail outs m)) := by
  intro masks
  induction masks with
  | nil => rfl
  | cons m rest ih =>
    cases hsing : isSingularMask avail outs m with
    | true =>
      obtain ⟨hsize, M, hbm, hinv⟩ := (isSingularMask_eq_true avail outs m).mp hsing
      have hfil : (m :: rest).filter (fun m2 => !isSingularMask avail outs m2) =
          rest.filter (fun m2 => !isSingularMask avail outs m2) := by
        simp [List.filter_cons, hsing]
      rw [hfil, ← ih, crmGo_cons_sing avail outs m rest M hsize hbm hinv]
    | false =>
      have hfil : (m :: rest).filter (fun m2 => !isSingularMask avail outs m2) =
          m :: rest.filter (fun m2 => !isSingularMask avail outs m2) := by
        simp [List.filter_cons, hsing]
      rw [hfil]
      by_cases hs : (maskFilter m avail).length = outs.length
      · cases hbm : buildMatrix (maskFilter m avail) outs with
        | error e2 =>
          rw [crmGo_cons_err avail outs m rest e2 hs hbm,
            crmGo_cons_err avail outs m
              (rest.filter (fun m2 => !isSingularMask avail outs m2)) e2 hs hbm]
        | ok M =>
          cases hinv : matInv M with
          | none =>
            exact absurd ((isSingularMask_eq_true avail outs m).mpr ⟨hs, M, hbm, hinv⟩)
              (by rw [hsing]; exact Bool.false_ne_true)
          | some MI =>
            rw [crmGo_cons_ok avail outs m rest M MI hs hbm hinv,
              crmGo_cons_ok avail outs m
                (rest.filter (fun m2 => !isSingularMask avail outs m2)) M MI hs hbm hinv,
              ih]
      · rw [crmGo_cons_skip avail outs m rest hs,
          crmGo_cons_skip avail outs m
            (rest.filter (fun m2 => !isSingularMask avail outs m2)) hs,
          ih]

theorem crmGo_ok_of_breakdowns (avail : List (String × Recipe)) (outs : List String)
    (hall : ∀ nr ∈ avail, nr.2.breakdown ≠ none) :
    ∀ masks, ∃ l, crmGo avail outs masks = Except.ok l := by
  intro masks
  induction masks with
  | nil => exact ⟨[], rfl⟩
  | cons m rest ih =>
    obtain ⟨l, hl⟩ := ih
    by_cases hs : (maskFilter m avail).length = outs.length
    · have hsub : ∀ nr ∈ maskFilter m avail, nr.2.breakdown ≠ none :=
        fun nr hnr => hall nr (maskFilter_subset m avail nr hnr)
      have hbm := buildMatrix_of_breakdowns (maskFilter m avail) outs hsub
      cases hinv : matInv (outs.map (fun out => (maskFilter m avail).map (fun nr =>
          lookupD (nr.2.breakdown.getD []) out - lookupD nr.2.ingredients out))) with
      | none =>
        exact ⟨l, by rw [crmGo_cons_sing avail outs m rest _ hs hbm hinv]; exact hl⟩
      | some MI =>
        refine ⟨((maskFilter m avail).map Prod.fst, MI) :: l, ?_⟩
        rw [crmGo_cons_ok avail outs m rest _ MI hs hbm hinv]
        simp only [hl]
    · exact ⟨l, by rw [crmGo_cons_skip avail outs m rest hs]; exact hl⟩

/-- C3: the search builds matrices exactly for the mask-selected subsets of
candidate recipes whose size equals the number of virtual output items: every
returned entry has that size, and every size-matching subset whose matrix
builds and inverts appears in the result; each matrix entry at row i (output
item) and column j (candidate recipe) is the breakdown quantity minus the
ingredient quantity of that item for that recipe, each taken as 0 when
absent; and the target vector reads each virtual item from the demand map,
defaulting to 0. -/
theorem claim_C3 :
    (∀ avail outs l, create_recipe_matrices avail outs = Except.ok l →
        (∀ entry ∈ l, entry.1.length = outs.length) ∧
        (∀ mask M MI, mask < 2 ^ avail.length →
            (maskFilter mask avail).length = outs.length →
            buildMatrix (maskFilter mask avail) outs = Except.ok M →
            matInv M = some MI →
            ((maskFilter mask avail).map Prod.fst, MI) ∈ l)) ∧
    (∀ subset outs, (∀ nr ∈ subset, nr.2.breakdown ≠ none) →
        buildMatrix subset outs = Except.ok (outs.map (fun out => subset.map (fun nr =>
          lookupD (nr.2.breakdown.getD []) out - lookupD nr.2.ingredients out)))) ∧
    (∀ products recipes, oilCounts products recipes =
        (oilOutputs recipes).map (fun p => (lookupL products p).getD 0)) := by
  refine ⟨?_, buildMatrix_of_breakdowns, ?_⟩
  · intro avail outs l h
    exact ⟨crmGo_entry_len avail outs _ l h,
      fun mask M MI hlt hsize hbm hinv =>
        crmGo_complete avail outs _ mask M MI l (List.mem_range.mpr hlt) hsize hbm hinv h⟩
  · intro products recipes
    simp [oilCounts, lookupD]

/-- Witness for C3 on the pool catalog: the single size-2 subset appears with
the inverse of [[2,-1],[-1,2]]. -/
theorem claim_C3_witness :
    (∀ entry ∈ poolMatrices, entry.1.length = (oilOutputs poolCatalog).length) ∧
    ((maskFilter 3 (oilAvailable poolCatalog)).map Prod.fst,
        ([[2 / 3, 1 / 3], [1 / 3, 2 / 3]] : List (List ℚ))) ∈ poolMatrices := by
  have h := claim_C3.1 (oilAvailable poolCatalog) (oilOutputs poolCatalog)
    poolMatrices (by decide)
  exact ⟨h.1, h.2 3 [[2, -1], [-1, 2]] [[2 / 3, 1 / 3], [1 / 3, 2 / 3]]
    (by decide) (by decide) (by decide) (by decide)⟩

/-- C6: a candidate subset whose matrix is singular raises no error (when
every candidate declares a breakdown the enumeration always returns ok), and
the enumeration over any mask list equals the enumeration over the same list
with the singular masks removed, exactly as if they had never been
enumerated. -/
theorem claim_C6 :
    (∀ avail outs, (∀ nr ∈ avail, nr.2.breakdown ≠ none) →
        ∃ l, create_recipe_matrices avail outs = Except.ok l) ∧
    (∀ avail outs masks, crmGo avail outs masks =
        crmGo avail outs (masks.filter (fun m => !isSingularMask avail outs m))) :=
  ⟨fun avail outs hall => crmGo_ok_of_breakdowns avail outs hall _,
   crmGo_skip_singular⟩

/-- Witness for C6: the singular catalog's only candidate subset is singular;
the enumeration succeeds with an empty result and equals the enumeration with
the singular mask filtered out. -/
theorem claim_C6_witness :
    (∃ l, create_recipe_matrices (oilAvailable singularCatalog)
        (oilOutputs singularCatalog) = Except.ok l) ∧
    crmGo (oilAvailable singularCatalog) (oilOutputs singularCatalog) [0, 1] =
      crmGo (oilAvailable singularCatalog) (oilOutputs singularCatalog)
        ([0, 1].filter (fun m => !isSingularMask (oilAvailable singularCatalog)
          (oilOutputs singularCatalog) m)) :=
  ⟨claim_C6.1 (oilAvailable singularCatalog) (oilOutputs singularCatalog) (by decide),
   claim_C6.2 (oilAvailable singularCatalog) (oilOutputs singularCatalog) [0, 1]⟩

/-- C10: if any enumerated size-matching candidate subset contains a recipe
without a breakdown mapping, create_recipe_matrices fails with the ValueError
message, unlike the silent exclusion of singular subsets, and process_oil
propagates the error, aborting the whole balancing computation. -/
theorem claim_C10 :
    (∀ avail outs mask, mask < 2 ^ avail.length →
        (maskFilter mask avail).length = outs.length →
        outs ≠ [] →
        (∃ nr ∈ maskFilter mask avail, nr.2.breakdown = none) →
        create_recipe_matrices avail outs =
          Except.error "Not a valid Oil Processing recipe") ∧
    (∀ fuel products recipes e,
        create_recipe_matrices (oilAvailable recipes) (oilOutputs recipes) =
          Except.error e →
        process_oil fuel products recipes = some (Except.error e)) := by
  constructor
  · intro avail outs mask hlt hsize hne hbad
    have hbm := buildMatrix_bad (maskFilter mask avail) outs hne hbad
    obtain ⟨e, he⟩ := crmGo_err_exists avail outs (List.range (2 ^ avail.length)) mask
      (List.mem_range.mpr hlt) hsize ⟨_, hbm⟩
    have hmsg := crmGo_err_msg avail outs (List.range (2 ^ avail.length)) e he
    simp only [create_recipe_matrices]
    rw [he, hmsg]
  · intro fuel products recipes e h
    simp only [process_oil, oilCombos, h]

/-- Witness for C10 on the bad catalog: its only candidate recipe has no
breakdown, so matrix construction raises and process_oil aborts. -/
theorem claim_C10_witness :
    create_recipe_matrices (oilAvailable badCatalog) (oilOutputs badCatalog) =
      Except.error "Not a valid Oil Processing recipe" ∧
    process_oil 10 [("Gas", 1)] badCatalog =
      some (Except.error "Not a valid Oil Processing recipe") := by
  have h1 := claim_C10.1 (oilAvailable badCatalog) (oilOutputs badCatalog) 1
    (by decide) (by decide) (by decide) (by decide)
  exact ⟨h1, claim_C10.2 10 [("Gas", 1)] badCatalog _ h1⟩
